import Mathlib

/-!
Verification of the sorting benchmark program (src/lab1.cpp): the record
model with its three-key comparison operators, the three hand-written sorts
(bubble, insertion, cocktail shaker), the baseline library sort, the CSV
record parser and the experiment driver loop.

Sequences (`std::vector<Service>`) are embedded as `List Service`; the
`double` fields are embedded as rationals, which carry exactly the
comparisons of all finite double values (the program only ever compares
these fields, it never does arithmetic on them); `int` is embedded as `ℤ`.
Loops are embedded as structural recursions over the list, with an explicit
iteration count where the C++ loop has an index bound; a vector access that
would be out of bounds is modelled as `none`.
-/

namespace Lab1

/-- `struct Service` (lab1.cpp lines 23-108): an IT service record with
name, estimated cost, duration in days and prepayment size. -/
structure Service where
  name : String
  cost : ℚ
  duration : ℤ
  prepayment : ℚ
deriving DecidableEq

/-- The default constructor `Service()` (line 32): empty name, zero fields. -/
def Service.init : Service := ⟨"", 0, 0, 0⟩

/-- `operator<` (lines 53-61): compare by cost, then prepayment, then name. -/
def Service.lt (a b : Service) : Bool :=
  if a.cost ≠ b.cost then decide (a.cost < b.cost)
  else if a.prepayment ≠ b.prepayment then decide (a.prepayment < b.prepayment)
  else decide (a.name < b.name)

/-- `operator>` (lines 68-70): `other < *this`. -/
def Service.gt (a b : Service) : Bool := Service.lt b a

/-- `operator<=` (lines 77-79): `!(other < *this)`. -/
def Service.le (a b : Service) : Bool := !(Service.lt b a)

/-- `operator>=` (lines 86-88): `!(*this < other)`. -/
def Service.ge (a b : Service) : Bool := !(Service.lt a b)

/-- `operator==` (lines 96-98): equality of the three sort keys only
(`duration` is not compared). -/
def Service.eq (a b : Service) : Bool :=
  decide (a.cost = b.cost) && decide (a.prepayment = b.prepayment) &&
    decide (a.name = b.name)

/-- `operator!=` (lines 105-107). -/
def Service.ne (a b : Service) : Bool := !(Service.eq a b)

/-- `a` precedes or ties `b`: the sorts' swap guard `arr[j] > arr[j+1]`
is false. A sequence is ascending exactly when `List.Chain' SLE` holds. -/
def SLE (a b : Service) : Prop := Service.gt a b = false

instance : DecidableRel SLE := fun a b =>
  inferInstanceAs (Decidable (Service.gt a b = false))

/-- The sort key triple of a record. -/
def skey (s : Service) : ℚ × ℚ × String := (s.cost, s.prepayment, s.name)

/-- The three-key strict lexicographic order on key triples. -/
def keyLt (x y : ℚ × ℚ × String) : Prop :=
  x.1 < y.1 ∨ (x.1 = y.1 ∧ (x.2.1 < y.2.1 ∨ (x.2.1 = y.2.1 ∧ x.2.2 < y.2.2)))

/-- The complement order on key triples (`y` is not strictly below `x`). -/
def keyLe (x y : ℚ × ℚ × String) : Prop := ¬ keyLt y x

/-! ### The sorting algorithms -/

/-- One bounded compare-and-swap sweep over adjacent elements: the inner loop
of `bubbleSort` (lines 243-248) and the forward pass of `shakerSort` (lines
290-295). `k` counts the iterations left (`bound - j` for position `j`); at
each iteration the adjacent pair at the current position is compared with
`operator>` and, on a swap, the larger element is carried forward. `none`
models an out-of-bounds vector access (iterations remaining but fewer than
two elements in reach), which never happens at the call sites. Returns the
updated elements and the `swapped` flag. -/
def sweepUp : Nat → List Service → Option (List Service × Bool)
  | 0, l => some (l, false)
  | _+1, [] => none
  | _+1, [_] => none
  | k+1, a :: b :: rest =>
    if Service.gt a b then
      (sweepUp k (a :: rest)).map (fun p => (b :: p.1, true))
    else
      (sweepUp k (b :: rest)).map (fun p => (a :: p.1, p.2))

/-- The outer loop of `bubbleSort` (lines 241-252). The fuel `f` is the
number of outer iterations left; at outer iteration `i` of the C++ loop the
inner bound is `n - i - 1`, which equals the remaining fuel. A pass with no
swaps ends the algorithm early (line 249-251). -/
def bubbleOuter : Nat → List Service → Option (List Service)
  | 0, l => some l
  | f+1, l =>
    match sweepUp (f+1) l with
    | none => none
    | some p => if p.2 then bubbleOuter f p.1 else some p.1

/-- `bubbleSort` (lines 238-253): `n - 1` outer iterations at most, inner
bound `n - i - 1`, early exit on a swap-free pass. -/
def bubbleSort (l : List Service) : Option (List Service) :=
  bubbleOuter (l.length - 1) l

/-- The shifting `while` loop of `insertionSort` (lines 268-271), acting on
the reversed sorted prefix (so that walking it front to back is the C++ walk
from `j = i - 1` down): elements strictly greater than `key` are passed over
(each such element ends up one slot to the right), and `key` is written into
the slot that frees up (line 272). -/
def shiftInsert (key : Service) : List Service → List Service
  | [] => [key]
  | a :: rest =>
    if Service.gt a key then a :: shiftInsert key rest else key :: a :: rest

/-- The outer loop of `insertionSort` (lines 262-273): `acc` is the already
sorted prefix `arr[0..i-1]` in reverse, the second list the elements still
to insert. -/
def insertLoop : List Service → List Service → List Service
  | acc, [] => acc.reverse
  | acc, x :: rest => insertLoop (shiftInsert x acc) rest

/-- `insertionSort` (lines 260-274): the loop starts at `i = 1`, so the
initial sorted prefix is the first element alone. -/
def insertionSort : List Service → List Service
  | [] => []
  | x :: rest => insertLoop [x] rest

/-- The backward pass of `shakerSort` (lines 302-307) viewed on the reversed
window, so that the C++ walk from `i = end - 1` down to `start` is a front
to back walk here: the pair `(b, a)` of this list is the adjacent pair
`(arr[i], arr[i+1])` of the array, the guard `arr[i] > arr[i+1]` is
`Service.gt b a`, and on a swap the smaller element is carried forward
(toward lower array positions). -/
def sweepDown : Nat → List Service → Option (List Service × Bool)
  | 0, l => some (l, false)
  | _+1, [] => none
  | _+1, [_] => none
  | k+1, a :: b :: rest =>
    if Service.gt b a then
      (sweepDown k (a :: rest)).map (fun p => (b :: p.1, true))
    else
      (sweepDown k (b :: rest)).map (fun p => (a :: p.1, p.2))

/-- The `while (swapped)` loop of `shakerSort` (lines 287-309). The array is
kept as `left ++ window ++ right` where `window` is `arr[start..end]` and
`left`, `right` are the already placed margins. One iteration: forward pass
over the window; if it swapped nothing, stop (line 296); otherwise `--end`
(line 299, the window's last element joins `right`), backward pass over the
rest of the window, `++start` (line 308, the window's first element joins
`left`), and loop again unless the backward pass swapped nothing. The fuel
only bounds the number of `while` iterations; `none` on exhausted fuel never
happens at the call site. -/
def shakerLoop : Nat → List Service → List Service → List Service →
    Option (List Service)
  | 0, _, _, _ => none
  | f+1, left, window, right =>
    match sweepUp (window.length - 1) window with
    | none => none
    | some p1 =>
      if !p1.2 then some (left ++ p1.1 ++ right)
      else
        match p1.1.getLast? with
        | none => none
        | some last =>
          match sweepDown (p1.1.dropLast.length - 1) p1.1.dropLast.reverse with
          | none => none
          | some p2 =>
            if p2.2 then
              match p2.1.reverse with
              | [] => none
              | h :: w4 => shakerLoop f (left ++ [h]) w4 (last :: right)
            else some (left ++ p2.1.reverse ++ (last :: right))

/-- `shakerSort` (lines 281-310): the full array is the initial window.
`l.length + 1` iterations of fuel always suffice, since the window shrinks
by two per iteration and a window of at most one element ends the loop. -/
def shakerSort (l : List Service) : Option (List Service) :=
  shakerLoop (l.length + 1) [] l []

/-- Modelled from the spec: the baseline library sort (`std::sort` at line
427 and 445), an unspecified comparison sort whose contract is to produce a
sequence ascending under `operator<` that is a permutation of its input;
embedded as merge sort with the derived `!(b < a)` comparison. -/
def stdSort (l : List Service) : List Service :=
  l.mergeSort (fun a b => !Service.lt b a)

/-! ### The record codec and the experiment driver

The `stringstream` a CSV line is parsed through is embedded as the list of
characters still unread. `std::getline(ss, seg, ',')` fails exactly when the
stream is already exhausted; otherwise it yields the segment before the next
comma (or the rest) and consumes it together with the delimiter. -/

/-- `std::getline(ss, segment, ',')` on the remaining characters. -/
def getlineComma (s : List Char) : Option (List Char × List Char) :=
  match s with
  | [] => none
  | _ =>
    some (s.takeWhile (fun c => c != ','),
      ((s.dropWhile (fun c => c != ',')).drop 1))

/-- `std::getline(ss, segment)` with no delimiter: the whole remainder. -/
def getlineRest (s : List Char) : Option (List Char) :=
  match s with
  | [] => none
  | _ => some s

/-- The numeric value of a digit run, most significant first. -/
def natOfDigits (l : List Char) : Nat :=
  l.foldl (fun a c => a * 10 + (c.toNat - 48)) 0

/-- Model of `std::stod` on a field: skip whitespace, optional sign, a run of
digits, an optional point and fraction digits; `none` (the thrown
`invalid_argument`) when no digit is found. Trailing junk is ignored, as
`stod` ignores it. Restricted to plain decimal notation: the exotic forms
(exponents, hex, inf/nan) never occur in this program's CSV fields. -/
def stod (s : List Char) : Option ℚ :=
  let s1 := s.dropWhile Char.isWhitespace
  let sgn : ℚ := if s1.head? = some '-' then -1 else 1
  let s2 := if s1.head? = some '-' || s1.head? = some '+' then s1.drop 1 else s1
  let intPart := s2.takeWhile Char.isDigit
  let s3 := s2.drop intPart.length
  let fracPart := if s3.head? = some '.' then (s3.drop 1).takeWhile Char.isDigit else []
  if intPart.isEmpty && fracPart.isEmpty then none
  else some (sgn * ((natOfDigits intPart : ℚ) +
    (natOfDigits fracPart : ℚ) / (10 : ℚ) ^ fracPart.length))

/-- Model of `std::stoi` on a field: skip whitespace, optional sign, a run of
digits; `none` when no digit is found; parsing stops at the first non-digit
(so `stoi "3.7" = 3`). -/
def stoi (s : List Char) : Option ℤ :=
  let s1 := s.dropWhile Char.isWhitespace
  let sgn : ℤ := if s1.head? = some '-' then -1 else 1
  let s2 := if s1.head? = some '-' || s1.head? = some '+' then s1.drop 1 else s1
  let digits := s2.takeWhile Char.isDigit
  if digits.isEmpty then none else some (sgn * (natOfDigits digits : ℤ))

/-- `operator>>` for one line (lines 119-138): fields are read in order
name, cost, duration, prepayment. A `getline` that fails returns early,
leaving the remaining fields of `s` (the caller's record, passed by
reference) untouched; a field whose conversion throws is set to zero by the
`catch` handler. The prepayment segment is the whole remainder of the line.
The stream stays good in every case, so the caller accepts the record. -/
def readService (prev : Service) (line : List Char) : Service :=
  match getlineComma line with
  | none => prev
  | some (nm, r1) =>
    let s1 := { prev with name := String.mk nm }
    match getlineComma r1 with
    | none => s1
    | some (seg2, r2) =>
      let s2 := { s1 with cost := (stod seg2).getD 0 }
      match getlineComma r2 with
      | none => s2
      | some (seg3, r3) =>
        let s3 := { s2 with duration := (stoi seg3).getD 0 }
        match getlineRest r3 with
        | none => s3
        | some seg4 => { s3 with prepayment := (stod seg4).getD 0 }

/-- The read loop of `loadServices` (lines 178-181): `tempService` is a
single variable reused across iterations, so each line is parsed into the
record left by the previous line; every line yields one record (the stream
stays good until the end of the file). -/
def readAll (temp : Service) : List String → List Service
  | [] => []
  | line :: rest =>
    let s := readService temp line.data
    s :: readAll s rest

/-- The three outcomes of `loadServices` as its caller sees them: the thrown
`runtime_error` (file cannot be opened), `false` (no header, a read error,
or no data rows), or `true` with the loaded records. -/
inductive LoadResult where
  | threw : LoadResult
  | failed : LoadResult
  | ok : List Service → LoadResult
deriving DecidableEq

/-- `loadServices` (lines 163-198) over the file's contents: `none` is a
file that cannot be opened (the function throws); an empty line list is a
file whose header cannot be read; otherwise the lines after the header are
parsed (starting from a default-constructed `tempService`) and an empty
record list is the header-only failure of lines 192-195. In every branch the
caller's vector has been cleared first (line 164) and then holds exactly the
records read so far. -/
def loadServices (file : Option (List String)) : LoadResult :=
  match file with
  | none => .threw
  | some [] => .failed
  | some (_header :: rest) =>
    let records := readAll Service.init rest
    if records.isEmpty then .failed else .ok records

/-- The driver state across the loop over dataset sizes (lines 384-433):
`currentData` is the vector the datasets are loaded into, `processed` the
sizes for which the experiments (step 2, lines 409-432) actually ran. -/
structure DriverState where
  currentData : List Service
  processed : List Nat
deriving DecidableEq

/-- One iteration of the driver loop (lines 384-433) for dataset size `sz`
against the file system `fs`. An open failure is caught (lines 403-407) and
the size skipped; a failed load is skipped (lines 392-396); in both cases
`currentData` was cleared by `loadServices` and the loop continues. On a
successful load the four measured sorts run on their own copies and the size
is recorded. -/
def driverStep (fs : Nat → Option (List String)) (st : DriverState)
    (sz : Nat) : DriverState :=
  match loadServices (fs sz) with
  | .threw => { st with currentData := [] }
  | .failed => { st with currentData := [] }
  | .ok r => { currentData := r, processed := st.processed ++ [sz] }

/-- `main`'s experiment loop and final save (lines 384-456): fold the loop
over the configured sizes, then, if `currentData` (whatever the last
iteration's load left in it) is nonempty, save a baseline-sorted copy of it;
otherwise no sorted output is produced. Returns the final state and the
saved artifact, if any. -/
def runDriver (fs : Nat → Option (List String)) (sizes : List Nat) :
    DriverState × Option (List Service) :=
  let st := sizes.foldl (driverStep fs) ⟨[], []⟩
  if st.currentData.isEmpty then (st, none)
  else (st, some (stdSort st.currentData))

/-! ### The comparison contract -/

/-- The key triple rebracketed as a lexicographic product, to borrow the
linear-order structure for the derived facts below. -/
def keyLex (x : ℚ × ℚ × String) : ℚ ×ₗ (ℚ ×ₗ String) :=
  toLex (x.1, toLex (x.2.1, x.2.2))

theorem keyLt_iff_lex (x y : ℚ × ℚ × String) :
    keyLt x y ↔ keyLex x < keyLex y := by
  simp [keyLex, keyLt, Prod.Lex.lt_iff]

theorem keyLex_inj {x y : ℚ × ℚ × String} (h : keyLex x = keyLex y) :
    x = y := by
  obtain ⟨xc, xp, xn⟩ := x
  obtain ⟨yc, yp, yn⟩ := y
  simpa [keyLex, toLex_inj, Prod.ext_iff] using h

theorem keyLt_asymm {x y : ℚ × ℚ × String} (h : keyLt x y) : ¬ keyLt y x := by
  rw [keyLt_iff_lex] at *
  exact lt_asymm h

theorem keyLt_trans {x y z : ℚ × ℚ × String} (h1 : keyLt x y)
    (h2 : keyLt y z) : keyLt x z := by
  rw [keyLt_iff_lex] at *
  exact lt_trans h1 h2

theorem keyLt_connex {x y : ℚ × ℚ × String} (h1 : ¬ keyLt x y)
    (h2 : ¬ keyLt y x) : x = y := by
  rw [keyLt_iff_lex] at h1 h2
  have := le_antisymm (not_lt.mp h1) (not_lt.mp h2)
  simpa [keyLex, toLex_inj, Prod.ext_iff] using this.symm

theorem keyLe_trans {x y z : ℚ × ℚ × String} (h1 : keyLe x y)
    (h2 : keyLe y z) : keyLe x z := by
  unfold keyLe at *
  rw [keyLt_iff_lex] at *
  intro h
  exact absurd (lt_of_lt_of_le h (le_trans (not_lt.mp h1) (not_lt.mp h2)))
    (lt_irrefl _)

theorem keyLe_total (x y : ℚ × ℚ × String) : keyLe x y ∨ keyLe y x := by
  unfold keyLe
  by_cases h : keyLt y x
  · exact Or.inr (keyLt_asymm h)
  · exact Or.inl h

/-- `operator<` is exactly the three-key strict lexicographic order. -/
theorem lt_iff_keyLt (a b : Service) :
    Service.lt a b = true ↔ keyLt (skey a) (skey b) := by
  unfold Service.lt keyLt skey
  split_ifs with h1 h2 <;> simp_all

theorem lt_eq_false_iff (a b : Service) :
    Service.lt a b = false ↔ ¬ keyLt (skey a) (skey b) := by
  rw [← lt_iff_keyLt]
  simp

theorem SLE_iff (a b : Service) : SLE a b ↔ keyLe (skey a) (skey b) := by
  unfold SLE Service.gt keyLe
  rw [lt_eq_false_iff]

/-- `operator==` is exactly equality of the key triples. -/
theorem eq_iff_skey (a b : Service) :
    Service.eq a b = true ↔ skey a = skey b := by
  simp [Service.eq, skey, Prod.ext_iff, and_assoc]

theorem SLE_trans {a b c : Service} (h1 : SLE a b) (h2 : SLE b c) :
    SLE a c := by
  rw [SLE_iff] at *
  exact keyLe_trans h1 h2

instance : IsTrans Service SLE := ⟨fun _ _ _ => SLE_trans⟩

theorem SLE_total (a b : Service) : SLE a b ∨ SLE b a := by
  rw [SLE_iff, SLE_iff]
  exact keyLe_total _ _

/-- A record below another in one direction and not above it in the other
direction ties with it under `operator==`. -/
theorem eq_of_SLE_SLE {a b : Service} (h1 : SLE a b) (h2 : SLE b a) :
    Service.eq a b = true := by
  rw [SLE_iff] at h1 h2
  rw [eq_iff_skey]
  exact keyLt_connex h2 h1

/-- A failed swap guard is exactly `SLE` in source order. -/
theorem sle_of_gt_false {a b : Service} (h : Service.gt a b = false) :
    SLE a b := h

/-- A successful swap guard gives `SLE` the other way (asymmetry). -/
theorem sle_of_gt_true {a b : Service} (h : Service.gt a b = true) :
    SLE b a := by
  unfold Service.gt at h
  unfold SLE Service.gt
  rw [lt_iff_keyLt] at h
  rw [lt_eq_false_iff]
  exact keyLt_asymm h

theorem keyLt_irrefl (x : ℚ × ℚ × String) : ¬ keyLt x x :=
  fun h => keyLt_asymm h h

theorem SLE_refl (a : Service) : SLE a a := by
  unfold SLE Service.gt
  rw [lt_eq_false_iff]
  exact keyLt_irrefl _

/-- Two records that may be swapped by a pass never tie with one and the
same record under `operator==`. -/
theorem gt_true_not_both_eq {a b r : Service} (hg : Service.gt a b = true)
    (ha : Service.eq a r = true) (hb : Service.eq b r = true) : False := by
  rw [eq_iff_skey] at ha hb
  unfold Service.gt at hg
  rw [lt_iff_keyLt] at hg
  rw [ha, hb] at hg
  exact keyLt_irrefl _ hg

/-! ### Properties of the sweeps -/

theorem sweepUp_some {k : Nat} : ∀ {l : List Service},
    k = 0 ∨ k < l.length → ∃ p, sweepUp k l = some p := by
  induction k with
  | zero => exact fun _ => ⟨_, rfl⟩
  | succ k ih =>
    intro l h
    rcases h with h | h
    · exact absurd h (Nat.succ_ne_zero k)
    · match l with
      | [] => simp at h
      | [a] => simp at h
      | a :: b :: rest =>
        have hk : k = 0 ∨ k < rest.length + 1 := by
          simp at h; omega
        cases hg : Service.gt a b with
        | true =>
          obtain ⟨q, hq⟩ := ih (l := a :: rest) (by simpa using hk)
          exact ⟨(b :: q.1, true), by simp [sweepUp, hg, hq]⟩
        | false =>
          obtain ⟨q, hq⟩ := ih (l := b :: rest) (by simpa using hk)
          exact ⟨(a :: q.1, q.2), by simp [sweepUp, hg, hq]⟩

theorem sweepUp_perm {k : Nat} : ∀ {l : List Service} {p},
    sweepUp k l = some p → p.1.Perm l := by
  induction k with
  | zero =>
    intro l p hp
    obtain rfl : p = (l, false) := by simpa [sweepUp] using hp.symm
    exact List.Perm.refl l
  | succ k ih =>
    intro l p hp
    match l with
    | [] => simp [sweepUp] at hp
    | [a] => simp [sweepUp] at hp
    | a :: b :: rest =>
      cases hg : Service.gt a b with
      | true =>
        simp only [sweepUp, hg, if_true, Option.map_eq_some'] at hp
        obtain ⟨q, hq, rfl⟩ := hp
        exact ((ih hq).cons b).trans (List.Perm.swap a b rest)
      | false =>
        simp only [sweepUp, hg, Bool.false_eq_true, if_false,
          Option.map_eq_some'] at hp
        obtain ⟨q, hq, rfl⟩ := hp
        exact (ih hq).cons a

theorem sweepUp_flag_false {k : Nat} : ∀ {l : List Service} {p},
    sweepUp k l = some p → p.2 = false → p.1 = l := by
  induction k with
  | zero =>
    intro l p hp _
    obtain rfl : p = (l, false) := by simpa [sweepUp] using hp.symm
    rfl
  | succ k ih =>
    intro l p hp hf
    match l with
    | [] => simp [sweepUp] at hp
    | [a] => simp [sweepUp] at hp
    | a :: b :: rest =>
      cases hg : Service.gt a b with
      | true =>
        simp only [sweepUp, hg, if_true, Option.map_eq_some'] at hp
        obtain ⟨q, _, rfl⟩ := hp
        simp at hf
      | false =>
        simp only [sweepUp, hg, Bool.false_eq_true, if_false,
          Option.map_eq_some'] at hp
        obtain ⟨q, hq, rfl⟩ := hp
        simp only at hf
        rw [ih hq hf]

theorem sweepUp_sorted_of_false {k : Nat} : ∀ {l : List Service} {p},
    l.length ≤ k + 1 → sweepUp k l = some p → p.2 = false →
    l.Chain' SLE := by
  induction k with
  | zero =>
    intro l p hlen _ _
    match l with
    | [] => exact List.chain'_nil
    | [a] => exact List.chain'_singleton a
    | a :: b :: rest => simp at hlen
  | succ k ih =>
    intro l p hlen hp hf
    match l with
    | [] => exact List.chain'_nil
    | [a] => exact List.chain'_singleton a
    | a :: b :: rest =>
      cases hg : Service.gt a b with
      | true =>
        simp only [sweepUp, hg, if_true, Option.map_eq_some'] at hp
        obtain ⟨q, _, rfl⟩ := hp
        simp at hf
      | false =>
        simp only [sweepUp, hg, Bool.false_eq_true, if_false,
          Option.map_eq_some'] at hp
        obtain ⟨q, hq, rfl⟩ := hp
        simp only at hf
        refine List.chain'_cons.mpr ⟨sle_of_gt_false hg, ?_⟩
        exact ih (by simp at hlen ⊢; omega) hq hf

theorem sweepUp_concat {k : Nat} : ∀ {w : List Service} (s : List Service),
    w.length = k + 1 →
    sweepUp k (w ++ s) = (sweepUp k w).map (fun q => (q.1 ++ s, q.2)) := by
  induction k with
  | zero =>
    intro w s hw
    obtain ⟨a, rfl⟩ := List.length_eq_one.mp hw
    rfl
  | succ k ih =>
    intro w s hw
    match w with
    | [] => simp at hw
    | [a] => simp at hw
    | a :: b :: w' =>
      have hw' : w'.length + 1 = k + 1 := by simpa using hw
      cases hg : Service.gt a b with
      | true =>
        show sweepUp (k+1) (a :: b :: (w' ++ s)) = _
        simp only [sweepUp, hg, if_true]
        rw [show a :: (w' ++ s) = (a :: w') ++ s from rfl,
          ih s (by simpa using hw'), Option.map_map, Option.map_map]
        rfl
      | false =>
        show sweepUp (k+1) (a :: b :: (w' ++ s)) = _
        simp only [sweepUp, hg, Bool.false_eq_true, if_false]
        rw [show b :: (w' ++ s) = (b :: w') ++ s from rfl,
          ih s (by simpa using hw'), Option.map_map, Option.map_map]
        rfl

theorem sweepUp_max : ∀ (t : List Service) (a : Service) {p},
    sweepUp (a :: t).length.pred (a :: t) = some p →
    ∃ w m, p.1 = w ++ [m] ∧ (∀ x ∈ w, SLE x m) ∧ SLE a m := by
  intro t
  induction t with
  | nil =>
    intro a p hp
    obtain rfl : p = ([a], false) := by simpa [sweepUp] using hp.symm
    exact ⟨[], a, rfl, by simp, SLE_refl a⟩
  | cons b rest ih =>
    intro a p hp
    cases hg : Service.gt a b with
    | true =>
      simp only [List.length_cons, Nat.pred_succ, sweepUp, hg, if_true,
        Option.map_eq_some'] at hp
      obtain ⟨q, hq, rfl⟩ := hp
      obtain ⟨w, m, hw, hbound, hhead⟩ := ih a (by simpa using hq)
      refine ⟨b :: w, m, by simp [hw], ?_, hhead⟩
      intro x hx
      rcases List.mem_cons.mp hx with rfl | hx
      · exact SLE_trans (sle_of_gt_true hg) hhead
      · exact hbound x hx
    | false =>
      simp only [List.length_cons, Nat.pred_succ, sweepUp, hg,
        Bool.false_eq_true, if_false, Option.map_eq_some'] at hp
      obtain ⟨q, hq, rfl⟩ := hp
      obtain ⟨w, m, hw, hbound, hhead⟩ := ih b (by simpa using hq)
      refine ⟨a :: w, m, by simp [hw], ?_, ?_⟩
      · intro x hx
        rcases List.mem_cons.mp hx with rfl | hx
        · exact SLE_trans (sle_of_gt_false hg) hhead
        · exact hbound x hx
      · exact SLE_trans (sle_of_gt_false hg) hhead

theorem sweepUp_filter {k : Nat} : ∀ {l : List Service} {p} (r : Service),
    sweepUp k l = some p →
    p.1.filter (fun x => Service.eq x r) =
      l.filter (fun x => Service.eq x r) := by
  induction k with
  | zero =>
    intro l p r hp
    obtain rfl : p = (l, false) := by simpa [sweepUp] using hp.symm
    rfl
  | succ k ih =>
    intro l p r hp
    match l with
    | [] => simp [sweepUp] at hp
    | [a] => simp [sweepUp] at hp
    | a :: b :: rest =>
      cases hg : Service.gt a b with
      | true =>
        simp only [sweepUp, hg, if_true, Option.map_eq_some'] at hp
        obtain ⟨q, hq, rfl⟩ := hp
        have hfq := ih r hq
        cases ha : Service.eq a r with
        | true =>
          cases hb : Service.eq b r with
          | true => exact (gt_true_not_both_eq hg ha hb).elim
          | false => simp [List.filter_cons, ha, hb, hfq]
        | false =>
          cases hb : Service.eq b r with
          | true => simp [List.filter_cons, ha, hb, hfq]
          | false => simp [List.filter_cons, ha, hb, hfq]
      | false =>
        simp only [sweepUp, hg, Bool.false_eq_true, if_false,
          Option.map_eq_some'] at hp
        obtain ⟨q, hq, rfl⟩ := hp
        have hfq := ih r hq
        simp [List.filter_cons, hfq]

theorem sweepDown_some {k : Nat} : ∀ {l : List Service},
    k = 0 ∨ k < l.length → ∃ p, sweepDown k l = some p := by
  induction k with
  | zero => exact fun _ => ⟨_, rfl⟩
  | succ k ih =>
    intro l h
    rcases h with h | h
    · exact absurd h (Nat.succ_ne_zero k)
    · match l with
      | [] => simp at h
      | [a] => simp at h
      | a :: b :: rest =>
        have hk : k = 0 ∨ k < rest.length + 1 := by
          simp at h; omega
        cases hg : Service.gt b a with
        | true =>
          obtain ⟨q, hq⟩ := ih (l := a :: rest) (by simpa using hk)
          exact ⟨(b :: q.1, true), by simp [sweepDown, hg, hq]⟩
        | false =>
          obtain ⟨q, hq⟩ := ih (l := b :: rest) (by simpa using hk)
          exact ⟨(a :: q.1, q.2), by simp [sweepDown, hg, hq]⟩

theorem sweepDown_perm {k : Nat} : ∀ {l : List Service} {p},
    sweepDown k l = some p → p.1.Perm l := by
  induction k with
  | zero =>
    intro l p hp
    obtain rfl : p = (l, false) := by simpa [sweepDown] using hp.symm
    exact List.Perm.refl l
  | succ k ih =>
    intro l p hp
    match l with
    | [] => simp [sweepDown] at hp
    | [a] => simp [sweepDown] at hp
    | a :: b :: rest =>
      cases hg : Service.gt b a with
      | true =>
        simp only [sweepDown, hg, if_true, Option.map_eq_some'] at hp
        obtain ⟨q, hq, rfl⟩ := hp
        exact ((ih hq).cons b).trans (List.Perm.swap a b rest)
      | false =>
        simp only [sweepDown, hg, Bool.false_eq_true, if_false,
          Option.map_eq_some'] at hp
        obtain ⟨q, hq, rfl⟩ := hp
        exact (ih hq).cons a

theorem sweepDown_flag_false {k : Nat} : ∀ {l : List Service} {p},
    sweepDown k l = some p → p.2 = false → p.1 = l := by
  induction k with
  | zero =>
    intro l p hp _
    obtain rfl : p = (l, false) := by simpa [sweepDown] using hp.symm
    rfl
  | succ k ih =>
    intro l p hp hf
    match l with
    | [] => simp [sweepDown] at hp
    | [a] => simp [sweepDown] at hp
    | a :: b :: rest =>
      cases hg : Service.gt b a with
      | true =>
        simp only [sweepDown, hg, if_true, Option.map_eq_some'] at hp
        obtain ⟨q, _, rfl⟩ := hp
        simp at hf
      | false =>
        simp only [sweepDown, hg, Bool.false_eq_true, if_false,
          Option.map_eq_some'] at hp
        obtain ⟨q, hq, rfl⟩ := hp
        simp only at hf
        rw [ih hq hf]

theorem sweepDown_sorted_of_false {k : Nat} : ∀ {l : List Service} {p},
    l.length ≤ k + 1 → sweepDown k l = some p → p.2 = false →
    l.Chain' (flip SLE) := by
  induction k with
  | zero =>
    intro l p hlen _ _
    match l with
    | [] => exact List.chain'_nil
    | [a] => exact List.chain'_singleton a
    | a :: b :: rest => simp at hlen
  | succ k ih =>
    intro l p hlen hp hf
    match l with
    | [] => exact List.chain'_nil
    | [a] => exact List.chain'_singleton a
    | a :: b :: rest =>
      cases hg : Service.gt b a with
      | true =>
        simp only [sweepDown, hg, if_true, Option.map_eq_some'] at hp
        obtain ⟨q, _, rfl⟩ := hp
        simp at hf
      | false =>
        simp only [sweepDown, hg, Bool.false_eq_true, if_false,
          Option.map_eq_some'] at hp
        obtain ⟨q, hq, rfl⟩ := hp
        simp only at hf
        refine List.chain'_cons.mpr ⟨sle_of_gt_false hg, ?_⟩
        exact ih (by simp at hlen ⊢; omega) hq hf

theorem sweepDown_min : ∀ (t : List Service) (a : Service) {p},
    sweepDown (a :: t).length.pred (a :: t) = some p →
    ∃ w m, p.1 = w ++ [m] ∧ (∀ x ∈ w, SLE m x) ∧ SLE m a := by
  intro t
  induction t with
  | nil =>
    intro a p hp
    obtain rfl : p = ([a], false) := by simpa [sweepDown] using hp.symm
    exact ⟨[], a, rfl, by simp, SLE_refl a⟩
  | cons b rest ih =>
    intro a p hp
    cases hg : Service.gt b a with
    | true =>
      simp only [List.length_cons, Nat.pred_succ, sweepDown, hg, if_true,
        Option.map_eq_some'] at hp
      obtain ⟨q, hq, rfl⟩ := hp
      obtain ⟨w, m, hw, hbound, hhead⟩ := ih a (by simpa using hq)
      refine ⟨b :: w, m, by simp [hw], ?_, hhead⟩
      intro x hx
      rcases List.mem_cons.mp hx with rfl | hx
      · exact SLE_trans hhead (sle_of_gt_true hg)
      · exact hbound x hx
    | false =>
      simp only [List.length_cons, Nat.pred_succ, sweepDown, hg,
        Bool.false_eq_true, if_false, Option.map_eq_some'] at hp
      obtain ⟨q, hq, rfl⟩ := hp
      obtain ⟨w, m, hw, hbound, hhead⟩ := ih b (by simpa using hq)
      refine ⟨a :: w, m, by simp [hw], ?_, ?_⟩
      · intro x hx
        rcases List.mem_cons.mp hx with rfl | hx
        · exact SLE_trans hhead (sle_of_gt_false hg)
        · exact hbound x hx
      · exact SLE_trans hhead (sle_of_gt_false hg)

/-! ### Bubble sort -/

theorem bubbleOuter_sorted : ∀ (f : Nat) (w s : List Service),
    w.length = f + 1 → s.Chain' SLE →
    (∀ x ∈ w, ∀ y ∈ s, SLE x y) →
    ∃ out, bubbleOuter f (w ++ s) = some out ∧ out.Chain' SLE ∧
      out.Perm (w ++ s) := by
  intro f
  induction f with
  | zero =>
    intro w s hw hs hdom
    obtain ⟨a, rfl⟩ := List.length_eq_one.mp hw
    refine ⟨a :: s, rfl, ?_, List.Perm.refl _⟩
    refine List.chain'_cons'.mpr ⟨?_, hs⟩
    intro y hy
    exact hdom a (by simp) y (List.mem_of_mem_head? hy)
  | succ f ih =>
    intro w s hw hs hdom
    obtain ⟨q, hq⟩ := sweepUp_some (k := f + 1) (l := w)
      (Or.inr (by omega))
    have hqperm : q.1.Perm w := sweepUp_perm hq
    have hsplit : sweepUp (f + 1) (w ++ s) = some (q.1 ++ s, q.2) := by
      rw [sweepUp_concat s hw, hq]; rfl
    cases hflag : q.2 with
    | false =>
      have hq1 : q.1 = w := sweepUp_flag_false hq hflag
      have hwsort : w.Chain' SLE :=
        sweepUp_sorted_of_false (by omega) hq hflag
      refine ⟨w ++ s, ?_, ?_, List.Perm.refl _⟩
      · simp only [bubbleOuter, hsplit, hflag, Bool.false_eq_true, if_false]
        rw [hq1]
      · refine List.chain'_append.mpr ⟨hwsort, hs, ?_⟩
        intro x hx y hy
        exact hdom x (List.mem_of_mem_getLast? hx) y (List.mem_of_mem_head? hy)
    | true =>
      match w, hw with
      | a :: t, hw =>
        have hq' : sweepUp (a :: t).length.pred (a :: t) = some q := by
          rw [show (a :: t).length.pred = f + 1 from by
            simp at hw ⊢; omega]
          exact hq
        obtain ⟨w', m, hq1, hbound, _⟩ := sweepUp_max t a hq'
        have hq1len : q.1.length = f + 2 := by
          rw [hqperm.length_eq, hw]
        have hw'len : w'.length = f + 1 := by
          rw [hq1] at hq1len
          simp at hq1len
          omega
        have hmmem : m ∈ (a :: t) := hqperm.subset (by simp [hq1])
        obtain ⟨out, hout, hsorted, hperm⟩ := ih w' (m :: s) hw'len
          (List.chain'_cons'.mpr
            ⟨fun y hy => hdom m hmmem y (List.mem_of_mem_head? hy), hs⟩)
          (by
            intro x hx y hy
            have hxw : x ∈ (a :: t) := hqperm.subset (by simp [hq1, hx])
            rcases List.mem_cons.mp hy with rfl | hy
            · exact hbound x hx
            · exact hdom x hxw y hy)
        refine ⟨out, ?_, hsorted, ?_⟩
        · simp only [bubbleOuter, hsplit, hflag, if_true]
          rw [show q.1 ++ s = w' ++ (m :: s) from by simp [hq1]]
          exact hout
        · refine hperm.trans ?_
          rw [show w' ++ (m :: s) = q.1 ++ s from by simp [hq1]]
          exact hqperm.append_right s

theorem bubbleSort_correct (l : List Service) :
    ∃ out, bubbleSort l = some out ∧ out.Chain' SLE ∧ out.Perm l := by
  match l with
  | [] => exact ⟨[], rfl, List.chain'_nil, List.Perm.refl _⟩
  | a :: t =>
    obtain ⟨out, hout, hsorted, hperm⟩ :=
      bubbleOuter_sorted t.length (a :: t) [] (by simp) List.chain'_nil
        (by simp)
    refine ⟨out, ?_, hsorted, by simpa using hperm⟩
    show bubbleOuter ((a :: t).length - 1) (a :: t) = some out
    simpa using hout

/-- A pass over an already sorted sequence swaps nothing and leaves it
unchanged. -/
theorem sweepUp_of_sorted : ∀ {l : List Service}, l.Chain' SLE →
    sweepUp l.length.pred l = some (l, false) := by
  intro l
  induction l with
  | nil => exact fun _ => rfl
  | cons a t ih =>
    intro hs
    match t, hs with
    | [], _ => rfl
    | b :: rest, hs =>
      obtain ⟨hab, hs'⟩ := List.chain'_cons.mp hs
      have hg : Service.gt a b = false := hab
      have := ih hs'
      simp only [List.length_cons, Nat.pred_succ] at this ⊢
      simp [sweepUp, hg, this]

theorem bubbleSort_of_sorted {l : List Service} (hs : l.Chain' SLE) :
    bubbleSort l = some l := by
  match l with
  | [] => rfl
  | [a] => rfl
  | a :: b :: t =>
    have hsw := sweepUp_of_sorted hs
    simp only [List.length_cons, Nat.pred_succ] at hsw
    show bubbleOuter ((a :: b :: t).length - 1) (a :: b :: t) = _
    simp only [List.length_cons]
    rw [show t.length + 1 + 1 - 1 = t.length + 1 from rfl]
    simp [bubbleOuter, hsw]

theorem bubbleOuter_filter : ∀ (f : Nat) {l out : List Service} (r : Service),
    bubbleOuter f l = some out →
    out.filter (fun x => Service.eq x r) =
      l.filter (fun x => Service.eq x r) := by
  intro f
  induction f with
  | zero =>
    intro l out r h
    obtain rfl : out = l := by simpa [bubbleOuter] using h.symm
    rfl
  | succ f ih =>
    intro l out r h
    simp only [bubbleOuter] at h
    cases hsw : sweepUp (f + 1) l with
    | none => rw [hsw] at h; exact absurd h (by simp)
    | some p =>
      rw [hsw] at h
      have h' : (if p.2 = true then bubbleOuter f p.1 else some p.1) =
          some out := h
      have hfp := sweepUp_filter r hsw
      cases hflag : p.2 with
      | false =>
        rw [hflag] at h'
        simp only [Bool.false_eq_true, if_false, Option.some.injEq] at h'
        rw [← h', hfp]
      | true =>
        rw [hflag] at h'
        simp only [if_true] at h'
        rw [ih r h', hfp]

/-- Bubble sort is stable: the records tying with any fixed record under
`operator==` come out in exactly their input order. -/
theorem bubbleSort_filter {l out : List Service} (r : Service)
    (h : bubbleSort l = some out) :
    out.filter (fun x => Service.eq x r) =
      l.filter (fun x => Service.eq x r) :=
  bubbleOuter_filter _ r h

/-! ### Insertion sort -/

theorem shiftInsert_perm (key : Service) : ∀ acc : List Service,
    (shiftInsert key acc).Perm (key :: acc) := by
  intro acc
  induction acc with
  | nil => exact List.Perm.refl _
  | cons a rest ih =>
    cases hg : Service.gt a key with
    | true =>
      simp only [shiftInsert, hg, if_true]
      exact (ih.cons a).trans (List.Perm.swap key a rest)
    | false =>
      simp only [shiftInsert, hg, Bool.false_eq_true, if_false]
      exact List.Perm.refl _

theorem shiftInsert_head (key : Service) (acc : List Service) :
    (shiftInsert key acc).head? = some key ∨
      (shiftInsert key acc).head? = acc.head? := by
  match acc with
  | [] => exact Or.inl rfl
  | a :: rest =>
    cases hg : Service.gt a key with
    | true => exact Or.inr (by simp [shiftInsert, hg])
    | false => exact Or.inl (by simp [shiftInsert, hg])

theorem shiftInsert_sorted {key : Service} : ∀ {acc : List Service},
    acc.Chain' (flip SLE) → (shiftInsert key acc).Chain' (flip SLE) := by
  intro acc
  induction acc with
  | nil => exact fun _ => List.chain'_singleton key
  | cons a rest ih =>
    intro h
    obtain ⟨hhead, htail⟩ := List.chain'_cons'.mp h
    cases hg : Service.gt a key with
    | true =>
      simp only [shiftInsert, hg, if_true]
      refine List.chain'_cons'.mpr ⟨?_, ih htail⟩
      intro y hy
      rcases shiftInsert_head key rest with he | he
      · rw [he] at hy
        obtain rfl : key = y := by simpa using hy
        exact sle_of_gt_true hg
      · rw [he] at hy
        exact hhead y hy
    | false =>
      simp only [shiftInsert, hg, Bool.false_eq_true, if_false]
      exact List.chain'_cons.mpr ⟨sle_of_gt_false hg, h⟩

theorem insertLoop_perm : ∀ (rest acc : List Service),
    (insertLoop acc rest).Perm (acc ++ rest) := by
  intro rest
  induction rest with
  | nil =>
    intro acc
    show acc.reverse.Perm (acc ++ [])
    simp
  | cons x rest ih =>
    intro acc
    refine (ih (shiftInsert x acc)).trans ?_
    refine (((shiftInsert_perm x acc).append_right rest).trans ?_)
    exact List.perm_middle.symm

theorem insertLoop_sorted : ∀ (rest acc : List Service),
    acc.Chain' (flip SLE) → (insertLoop acc rest).Chain' SLE := by
  intro rest
  induction rest with
  | nil =>
    intro acc h
    exact (List.chain'_reverse (l := acc)).mpr h
  | cons x rest ih =>
    intro acc h
    exact ih _ (shiftInsert_sorted h)

theorem insertionSort_correct (l : List Service) :
    (insertionSort l).Chain' SLE ∧ (insertionSort l).Perm l := by
  match l with
  | [] => exact ⟨List.chain'_nil, List.Perm.refl _⟩
  | x :: rest =>
    refine ⟨insertLoop_sorted rest [x] (List.chain'_singleton x), ?_⟩
    simpa using insertLoop_perm rest [x]

theorem shiftInsert_no_shift {key : Service} {acc : List Service}
    (h : ∀ a ∈ acc.head?, SLE a key) : shiftInsert key acc = key :: acc := by
  match acc with
  | [] => rfl
  | a :: rest =>
    have hg : Service.gt a key = false := h a rfl
    simp [shiftInsert, hg]

theorem insertLoop_of_sorted : ∀ (rest acc : List Service),
    (acc.reverse ++ rest).Chain' SLE →
    insertLoop acc rest = acc.reverse ++ rest := by
  intro rest
  induction rest with
  | nil => intro acc _; simp [insertLoop]
  | cons x rest ih =>
    intro acc h
    have hshift : shiftInsert x acc = x :: acc := by
      refine shiftInsert_no_shift ?_
      intro a ha
      have hlast : acc.reverse.getLast? = some a := by
        rw [List.getLast?_reverse]; exact ha
      exact (List.chain'_append.mp h).2.2 a hlast x rfl
    show insertLoop (shiftInsert x acc) rest = _
    rw [hshift]
    have h' : ((x :: acc).reverse ++ rest).Chain' SLE := by
      simpa [List.append_assoc] using h
    rw [ih (x :: acc) h']
    simp

theorem insertionSort_of_sorted {l : List Service} (h : l.Chain' SLE) :
    insertionSort l = l := by
  match l with
  | [] => rfl
  | x :: rest =>
    show insertLoop [x] rest = x :: rest
    have := insertLoop_of_sorted rest [x] (by simpa using h)
    simpa using this

/-! ### Shaker sort -/

theorem chain'_append_of_dom {l m : List Service}
    (hl : l.Chain' SLE) (hm : m.Chain' SLE)
    (hdom : ∀ x ∈ l, ∀ y ∈ m, SLE x y) : (l ++ m).Chain' SLE :=
  List.chain'_append.mpr ⟨hl, hm, fun x hx y hy =>
    hdom x (List.mem_of_mem_getLast? hx) y (List.mem_of_mem_head? hy)⟩

theorem shakerLoop_sorted : ∀ (fuel : Nat) (left window right : List Service),
    window.length < 2 * fuel →
    left.Chain' SLE → right.Chain' SLE →
    (∀ x ∈ left, ∀ y ∈ window ++ right, SLE x y) →
    (∀ x ∈ window, ∀ y ∈ right, SLE x y) →
    ∃ out, shakerLoop fuel left window right = some out ∧
      out.Chain' SLE ∧ out.Perm (left ++ window ++ right) := by
  intro fuel
  induction fuel with
  | zero => intro left window right hlen _ _ _ _; omega
  | succ fuel ih =>
    intro left window right hlen hleft hright hdom1 hdom2
    obtain ⟨p1, hp1⟩ := sweepUp_some (k := window.length - 1) (l := window)
      (by
        match window with
        | [] => exact Or.inl rfl
        | a :: t => exact Or.inr (by simp)
      )
    have hp1perm : p1.1.Perm window := sweepUp_perm hp1
    cases hflag1 : p1.2 with
    | false =>
      have hp11 : p1.1 = window := sweepUp_flag_false hp1 hflag1
      have hwsort : window.Chain' SLE :=
        sweepUp_sorted_of_false (by omega) hp1 hflag1
      refine ⟨left ++ window ++ right, ?_, ?_, List.Perm.refl _⟩
      · show shakerLoop (fuel + 1) left window right = _
        simp only [shakerLoop, hp1, hflag1, Bool.not_false, if_true]
        rw [hp11]
      · refine chain'_append_of_dom (chain'_append_of_dom hleft hwsort ?_)
          hright ?_
        · intro x hx y hy
          exact hdom1 x hx y (List.mem_append_left right hy)
        · intro x hx y hy
          rcases List.mem_append.mp hx with hx | hx
          · exact hdom1 x hx y (List.mem_append_right window hy)
          · exact hdom2 x hx y hy
    | true =>
      obtain ⟨a, b, t, rfl⟩ : ∃ a b t, window = a :: b :: t := by
        match window, hp1 with
        | [], hp1 =>
          obtain rfl : p1 = ([], false) := by simpa [sweepUp] using hp1.symm
          simp at hflag1
        | [x], hp1 =>
          obtain rfl : p1 = ([x], false) := by simpa [sweepUp] using hp1.symm
          simp at hflag1
        | a :: b :: t, _ => exact ⟨a, b, t, rfl⟩
      have hp1' : sweepUp (a :: b :: t).length.pred (a :: b :: t) = some p1 := by
        simpa using hp1
      obtain ⟨w', m, hq1, hbound, _⟩ := sweepUp_max (b :: t) a hp1'
      have hmw : m ∈ (a :: b :: t) := hp1perm.subset (by simp [hq1])
      have hsubw : ∀ x ∈ w', x ∈ (a :: b :: t) := fun x hx =>
        hp1perm.subset (by simp [hq1, hx])
      have hlast : p1.1.getLast? = some m := by
        rw [hq1]; exact List.getLast?_concat _
      have hdrop : p1.1.dropLast = w' := by
        rw [hq1]; exact List.dropLast_concat
      have hw'len : w'.length = t.length + 1 := by
        have := hp1perm.length_eq
        rw [hq1] at this
        simp at this
        omega
      obtain ⟨p2, hp2⟩ := sweepDown_some (k := w'.length - 1)
        (l := w'.reverse) (Or.inr (by simp; omega))
      have hp2perm : p2.1.Perm w' :=
        (sweepDown_perm hp2).trans w'.reverse_perm
      have hmrchain : (m :: right).Chain' SLE :=
        List.chain'_cons'.mpr
          ⟨fun y hy => hdom2 m hmw y (List.mem_of_mem_head? hy), hright⟩
      cases hflag2 : p2.2 with
      | false =>
        have hp21 : p2.1 = w'.reverse := sweepDown_flag_false hp2 hflag2
        have hw'sort : w'.Chain' SLE := by
          have hflip : (w'.reverse).Chain' (flip SLE) :=
            sweepDown_sorted_of_false (by simp; omega) hp2 hflag2
          have := (List.chain'_reverse (l := w'.reverse)).mpr hflip
          simpa using this
        refine ⟨left ++ w' ++ (m :: right), ?_, ?_, ?_⟩
        · show shakerLoop (fuel + 1) left (a :: b :: t) right = _
          simp only [shakerLoop, hp1, hflag1, Bool.not_true, Bool.false_eq_true,
            if_false, hlast, hdrop, hp2, hflag2, hp21, List.reverse_reverse]
        · refine chain'_append_of_dom (chain'_append_of_dom hleft hw'sort ?_)
            hmrchain ?_
          · intro x hx y hy
            exact hdom1 x hx y (List.mem_append_left right (hsubw y hy))
          · intro x hx y hy
            rcases List.mem_append.mp hx with hx | hx
            · rcases List.mem_cons.mp hy with rfl | hy
              · exact hdom1 x hx y (List.mem_append_left right hmw)
              · exact hdom1 x hx y (List.mem_append_right _ hy)
            · rcases List.mem_cons.mp hy with rfl | hy
              · exact hbound x hx
              · exact hdom2 x (hsubw x hx) y hy
        · have hrw : w' ++ (m :: right) = p1.1 ++ right := by simp [hq1]
          have hperm : (left ++ (w' ++ (m :: right))).Perm
              (left ++ ((a :: b :: t) ++ right)) := by
            rw [hrw]
            exact (hp1perm.append_right right).append_left left
          simpa [List.append_assoc] using hperm
      | true =>
        have hw'ne : w'.reverse ≠ [] := by
          simp
          intro hcon
          rw [hcon] at hw'len
          simp at hw'len
        obtain ⟨c, t', hct⟩ := List.exists_cons_of_ne_nil hw'ne
        have hp2' : sweepDown (c :: t').length.pred (c :: t') = some p2 := by
          rw [← hct]
          have hlen' : w'.reverse.length.pred = w'.length - 1 := by simp
          rw [hlen']
          exact hp2
        obtain ⟨u, mn, hq2, hboundD, _⟩ := sweepDown_min t' c hp2'
        have hmnw : mn ∈ w' := hp2perm.subset (by simp [hq2])
        have hsubu : ∀ x ∈ u, x ∈ w' := fun x hx =>
          hp2perm.subset (by simp [hq2, hx])
        have hrev : p2.1.reverse = mn :: u.reverse := by simp [hq2]
        have hulen : u.reverse.length = t.length := by
          have := hp2perm.length_eq
          rw [hq2] at this
          simp at this ⊢
          omega
        obtain ⟨out, hout, hsorted, hperm⟩ := ih (left ++ [mn]) u.reverse
          (m :: right)
          (by rw [hulen]; simp at hlen; omega)
          (by
            refine chain'_append_of_dom hleft (List.chain'_singleton mn) ?_
            intro x hx y hy
            obtain rfl : y = mn := by simpa using hy
            exact hdom1 x hx y
              (List.mem_append_left right (hsubw y hmnw)))
          hmrchain
          (by
            intro x hx y hy
            rcases List.mem_append.mp hx with hx | hx
            · rcases List.mem_append.mp hy with hy | hy
              · exact hdom1 x hx y (List.mem_append_left right
                  (hsubw y (hsubu y (by simpa using hy))))
              · rcases List.mem_cons.mp hy with rfl | hy
                · exact hdom1 x hx y (List.mem_append_left right hmw)
                · exact hdom1 x hx y (List.mem_append_right _ hy)
            · obtain rfl : x = mn := by simpa using hx
              rcases List.mem_append.mp hy with hy | hy
              · exact hboundD y (by simpa using hy)
              · rcases List.mem_cons.mp hy with rfl | hy
                · exact hbound x hmnw
                · exact hdom2 x (hsubw x hmnw) y hy)
          (by
            intro x hx y hy
            have hxw : x ∈ w' := hsubu x (by simpa using hx)
            rcases List.mem_cons.mp hy with rfl | hy
            · exact hbound x hxw
            · exact hdom2 x (hsubw x hxw) y hy)
        refine ⟨out, ?_, hsorted, ?_⟩
        · show shakerLoop (fuel + 1) left (a :: b :: t) right = _
          simp only [shakerLoop, hp1, hflag1, Bool.not_true, Bool.false_eq_true,
            if_false, hlast, hdrop, hp2, hflag2, if_true, hrev]
          exact hout
        · have h1 : (mn :: u.reverse).Perm w' := by
            rw [← hrev]
            exact p2.1.reverse_perm.trans hp2perm
          have h2 : ((mn :: u.reverse) ++ (m :: right)).Perm
              ((a :: b :: t) ++ right) := by
            have hstep : (w' ++ (m :: right)) = p1.1 ++ right := by
              simp [hq1]
            refine (h1.append_right (m :: right)).trans ?_
            rw [hstep]
            exact hp1perm.append_right right
          have hperm' : out.Perm
              (left ++ ((mn :: u.reverse) ++ (m :: right))) := by
            simpa [List.append_assoc] using hperm
          have := hperm'.trans (h2.append_left left)
          simpa [List.append_assoc] using this

theorem shakerSort_correct (l : List Service) :
    ∃ out, shakerSort l = some out ∧ out.Chain' SLE ∧ out.Perm l := by
  obtain ⟨out, hout, hsorted, hperm⟩ := shakerLoop_sorted (l.length + 1)
    [] l [] (by omega) List.chain'_nil List.chain'_nil
    (by intro x hx; simp at hx) (by intro x _ y hy; simp at hy)
  exact ⟨out, hout, hsorted, by simpa using hperm⟩

theorem shakerSort_of_sorted {l : List Service} (hs : l.Chain' SLE) :
    shakerSort l = some l := by
  have hsw := sweepUp_of_sorted hs
  show shakerLoop (l.length + 1) [] l [] = some l
  have hsw' : sweepUp (l.length - 1) l = some (l, false) := by
    simpa [Nat.pred_eq_sub_one] using hsw
  simp [shakerLoop, hsw']

/-! ### The baseline sort -/

theorem stdSort_perm (l : List Service) : (stdSort l).Perm l :=
  List.mergeSort_perm l _

theorem sle_iff_comparator {a b : Service} :
    (!Service.lt b a) = true ↔ SLE a b := by
  unfold SLE Service.gt
  simp

theorem stdSort_sorted (l : List Service) : (stdSort l).Chain' SLE := by
  have hp : (List.mergeSort l (fun a b => !Service.lt b a)).Pairwise
      (fun a b => (!Service.lt b a) = true) :=
    @List.sorted_mergeSort Service (fun a b => !Service.lt b a)
      (fun a b c hab hbc =>
        sle_iff_comparator.mpr
          (SLE_trans (sle_iff_comparator.mp hab)
            (sle_iff_comparator.mp hbc)))
      (fun a b => by
        rcases SLE_total a b with h | h
        · simp [Bool.or_eq_true, sle_iff_comparator.mpr h]
        · simp [Bool.or_eq_true, sle_iff_comparator.mpr h]) l
  exact (hp.imp fun hab => sle_iff_comparator.mp hab).chain'

theorem stdSort_of_sorted {l : List Service} (h : l.Chain' SLE) :
    stdSort l = l := by
  apply List.mergeSort_of_sorted
  have hp : l.Pairwise SLE := List.chain'_iff_pairwise.mp h
  exact hp.imp fun hab => sle_iff_comparator.mpr hab

/-! ### Agreement of sorted permutations up to `operator==` -/

theorem keyLe_refl (x : ℚ × ℚ × String) : keyLe x x := keyLt_irrefl x

theorem keyChain_lower : ∀ {k : ℚ × ℚ × String} {ks},
    (k :: ks).Chain' keyLe → ∀ x ∈ ks, keyLe k x := by
  intro k ks
  induction ks generalizing k with
  | nil => intro _ x hx; simp at hx
  | cons b t ih =>
    intro h x hx
    obtain ⟨hkb, ht⟩ := List.chain'_cons.mp h
    rcases List.mem_cons.mp hx with rfl | hx
    · exact hkb
    · exact keyLe_trans hkb (ih ht x hx)

theorem keySorted_perm_eq : ∀ {ks1 ks2 : List (ℚ × ℚ × String)},
    ks1.Chain' keyLe → ks2.Chain' keyLe → ks1.Perm ks2 → ks1 = ks2 := by
  intro ks1
  induction ks1 with
  | nil =>
    intro ks2 _ _ hperm
    exact (hperm.symm.eq_nil).symm
  | cons a t1 ih =>
    intro ks2 h1 h2 hperm
    match ks2 with
    | [] => exact absurd hperm.eq_nil (by simp)
    | b :: t2 =>
      have hab : keyLe a b := by
        rcases List.mem_cons.mp (hperm.symm.subset (List.mem_cons_self b t2))
          with rfl | hb
        · exact keyLe_refl b
        · exact keyChain_lower h1 b hb
      have hba : keyLe b a := by
        rcases List.mem_cons.mp (hperm.subset (List.mem_cons_self a t1))
          with heq | ha
        · rw [heq]; exact keyLe_refl b
        · exact keyChain_lower h2 a ha
      obtain rfl : a = b := keyLt_connex hba hab
      have := ih (List.chain'_cons'.mp h1).2 (List.chain'_cons'.mp h2).2
        hperm.cons_inv
      rw [this]

theorem map_skey_eq_forall₂ : ∀ {l1 l2 : List Service},
    l1.map skey = l2.map skey →
    List.Forall₂ (fun a b => Service.eq a b = true) l1 l2 := by
  intro l1
  induction l1 with
  | nil =>
    intro l2 h
    obtain rfl : l2 = [] := by simpa using h.symm
    exact List.Forall₂.nil
  | cons a t1 ih =>
    intro l2 h
    match l2 with
    | [] => simp at h
    | b :: t2 =>
      simp only [List.map_cons, List.cons.injEq] at h
      exact List.Forall₂.cons ((eq_iff_skey a b).mpr h.1) (ih h.2)

theorem chain_map_skey {l : List Service} (h : l.Chain' SLE) :
    (l.map skey).Chain' keyLe := by
  rw [List.chain'_map]
  exact h.imp fun a b hab => (SLE_iff a b).mp hab

/-- Any two ascending rearrangements of one list agree element by element
under `operator==`. -/
theorem sorted_perm_agree {l l1 l2 : List Service}
    (h1 : l1.Chain' SLE) (h2 : l2.Chain' SLE)
    (p1 : l1.Perm l) (p2 : l2.Perm l) :
    List.Forall₂ (fun a b => Service.eq a b = true) l1 l2 := by
  apply map_skey_eq_forall₂
  apply keySorted_perm_eq (chain_map_skey h1) (chain_map_skey h2)
  exact (p1.trans p2.symm).map skey

/-! ### Codec and driver facts -/

theorem loadServices_header_only (hdr : String) :
    loadServices (some [hdr]) = .failed := by
  simp [loadServices, readAll]

theorem loadServices_ok_not_empty : ∀ {f : Option (List String)}
    {r : List Service}, loadServices f = .ok r → r.isEmpty = false := by
  intro f r h
  match f with
  | none => simp [loadServices] at h
  | some [] => simp [loadServices] at h
  | some (hd :: rest) =>
    simp only [loadServices] at h
    by_cases he : (readAll Service.init rest).isEmpty
    · rw [if_pos he] at h
      exact absurd h (by simp)
    · rw [if_neg he] at h
      obtain rfl : readAll Service.init rest = r := by simpa using h
      simpa using he

theorem driverStep_threw {fs : Nat → Option (List String)} {st : DriverState}
    {sz : Nat} (h : loadServices (fs sz) = .threw) :
    driverStep fs st sz = ⟨[], st.processed⟩ := by
  simp [driverStep, h]

theorem driverStep_failed {fs : Nat → Option (List String)} {st : DriverState}
    {sz : Nat} (h : loadServices (fs sz) = .failed) :
    driverStep fs st sz = ⟨[], st.processed⟩ := by
  simp [driverStep, h]

theorem runDriver_skip_head {fs : Nat → Option (List String)} {s : Nat}
    (rest : List Nat)
    (h : loadServices (fs s) = .threw ∨ loadServices (fs s) = .failed) :
    runDriver fs (s :: rest) = runDriver fs rest := by
  unfold runDriver
  simp only [List.foldl_cons]
  have hstep : driverStep fs ⟨[], []⟩ s = ⟨[], []⟩ := by
    rcases h with h | h
    · exact driverStep_threw h
    · exact driverStep_failed h
  rw [hstep]

theorem runDriver_snd (fs : Nat → Option (List String)) (sizes : List Nat) :
    (runDriver fs sizes).2 =
      (if (sizes.foldl (driverStep fs) ⟨[], []⟩).currentData.isEmpty then none
       else some (stdSort
         (sizes.foldl (driverStep fs) ⟨[], []⟩).currentData)) := by
  unfold runDriver
  by_cases h : (sizes.foldl (driverStep fs) ⟨[], []⟩).currentData.isEmpty <;>
    simp [h]

theorem runDriver_last_ok {fs : Nat → Option (List String)} {szs : List Nat}
    {s : Nat} {r : List Service} (h : loadServices (fs s) = .ok r) :
    (runDriver fs (szs ++ [s])).2 = some (stdSort r) := by
  rw [runDriver_snd, List.foldl_append]
  simp only [List.foldl_cons, List.foldl_nil]
  rw [show driverStep fs (szs.foldl (driverStep fs) ⟨[], []⟩) s =
      { currentData := r,
        processed := (szs.foldl (driverStep fs) ⟨[], []⟩).processed ++ [s] }
    from by simp [driverStep, h]]
  simp [loadServices_ok_not_empty h]

theorem runDriver_last_fail {fs : Nat → Option (List String)} {szs : List Nat}
    {s : Nat}
    (h : loadServices (fs s) = .threw ∨ loadServices (fs s) = .failed) :
    (runDriver fs (szs ++ [s])).2 = none := by
  rw [runDriver_snd, List.foldl_append]
  simp only [List.foldl_cons, List.foldl_nil]
  rcases h with h | h
  · rw [driverStep_threw h]; rfl
  · rw [driverStep_failed h]; rfl

/-! ## The claims -/

/-- Claim C1: for every finite sequence of records, each of `bubbleSort`,
`insertionSort` and `shakerSort` produces a sequence that is non-decreasing
under the three-key order (`List.Chain' SLE`), is a permutation of the
input (identical multiset content), and has the input's length. -/
theorem claim_C1_sorts_sort (l : List Service) :
    (∃ out, bubbleSort l = some out ∧ out.Chain' SLE ∧ out.Perm l ∧
      out.length = l.length) ∧
    ((insertionSort l).Chain' SLE ∧ (insertionSort l).Perm l ∧
      (insertionSort l).length = l.length) ∧
    (∃ out, shakerSort l = some out ∧ out.Chain' SLE ∧ out.Perm l ∧
      out.length = l.length) := by
  obtain ⟨b, hb, hbs, hbp⟩ := bubbleSort_correct l
  obtain ⟨his, hip⟩ := insertionSort_correct l
  obtain ⟨s, hs, hss, hsp⟩ := shakerSort_correct l
  exact ⟨⟨b, hb, hbs, hbp, hbp.length_eq⟩, ⟨his, hip, hip.length_eq⟩,
    ⟨s, hs, hss, hsp, hsp.length_eq⟩⟩

/-- Claim C2: the comparison operators all derive from the one three-key
ordering (`>`, `<=`, `>=`, `!=` are the stated rewritings of `<` and `==`);
strict-less is irreflexive, transitive and asymmetric; `==` holds exactly
when neither side is strictly less; and two records agreeing on cost,
prepayment and name compare equal whatever their durations. -/
theorem claim_C2_comparison_contract (a b c : Service) :
    (Service.gt a b = Service.lt b a ∧ Service.le a b = !Service.lt b a ∧
      Service.ge a b = !Service.lt a b ∧
      Service.ne a b = !Service.eq a b) ∧
    Service.lt a a = false ∧
    (Service.lt a b = true → Service.lt b c = true →
      Service.lt a c = true) ∧
    (Service.lt a b = true → Service.lt b a = false) ∧
    (Service.eq a b = true ↔
      Service.lt a b = false ∧ Service.lt b a = false) ∧
    (a.cost = b.cost → a.prepayment = b.prepayment → a.name = b.name →
      Service.eq a b = true) := by
  refine ⟨⟨rfl, rfl, rfl, rfl⟩, ?_, ?_, ?_, ⟨?_, ?_⟩, ?_⟩
  · rw [lt_eq_false_iff]; exact keyLt_irrefl _
  · intro h1 h2
    rw [lt_iff_keyLt] at *
    exact keyLt_trans h1 h2
  · intro h
    rw [lt_iff_keyLt] at h
    rw [lt_eq_false_iff]
    exact keyLt_asymm h
  · intro h
    have hk := (eq_iff_skey a b).mp h
    constructor
    · rw [lt_eq_false_iff, hk]; exact keyLt_irrefl _
    · rw [lt_eq_false_iff, hk]; exact keyLt_irrefl _
  · rintro ⟨h1, h2⟩
    rw [lt_eq_false_iff] at h1 h2
    rw [eq_iff_skey]
    exact keyLt_connex h1 h2
  · intro h1 h2 h3
    rw [eq_iff_skey]
    simp [skey, Prod.ext_iff, h1, h2, h3]

/-- Claim C3: on every input, the three custom sorts (each on its own copy)
and the baseline sort produce outputs that compare equal element by element
under `operator==` — every pair of the four agrees. -/
theorem claim_C3_cross_agreement (l : List Service) :
    ∃ outB outS, bubbleSort l = some outB ∧ shakerSort l = some outS ∧
      List.Forall₂ (fun a b => Service.eq a b = true) outB (stdSort l) ∧
      List.Forall₂ (fun a b => Service.eq a b = true) (insertionSort l)
        (stdSort l) ∧
      List.Forall₂ (fun a b => Service.eq a b = true) outS (stdSort l) ∧
      List.Forall₂ (fun a b => Service.eq a b = true) outB
        (insertionSort l) ∧
      List.Forall₂ (fun a b => Service.eq a b = true) outB outS ∧
      List.Forall₂ (fun a b => Service.eq a b = true) (insertionSort l)
        outS := by
  obtain ⟨b, hb, hbs, hbp⟩ := bubbleSort_correct l
  obtain ⟨his, hip⟩ := insertionSort_correct l
  obtain ⟨s, hs, hss, hsp⟩ := shakerSort_correct l
  have hstd := stdSort_sorted l
  have hstdp := stdSort_perm l
  exact ⟨b, s, hb, hs,
    sorted_perm_agree hbs hstd hbp hstdp,
    sorted_perm_agree his hstd hip hstdp,
    sorted_perm_agree hss hstd hsp hstdp,
    sorted_perm_agree hbs his hbp hip,
    sorted_perm_agree hbs hss hbp hsp,
    sorted_perm_agree his hss hip hsp⟩

/-- Claim C4 counterexample: with sizes `[1, 2]`, size 1 loads successfully
and size 2's file is header-only; a dataset did load successfully, yet no
sorted output is persisted, because the failed final load had cleared the
dataset vector first. -/
theorem claim_C4_counterexample :
    loadServices ((fun n => if n = 1 then some ["h", "A,x,1,x"]
      else if n = 2 then some ["h"] else none) 1) =
        .ok [⟨"A", 0, 1, 0⟩] ∧
    (runDriver (fun n => if n = 1 then some ["h", "A,x,1,x"]
      else if n = 2 then some ["h"] else none) [1, 2]).2 = none :=
  ⟨by decide, by decide⟩

/-- Claim C4 (amended): after the loop the driver persists the
baseline-sorted copy of whatever the LAST load attempt left in
`currentData`: if the final size's load succeeded with records `r` the
artifact is `stdSort r`; if the final load attempt threw or failed (or the
size list is empty) no output is produced — even when an earlier size had
loaded successfully, since every load attempt clears the vector first. -/
theorem claim_C4_last_attempt_persisted (fs : Nat → Option (List String))
    (szs : List Nat) (s : Nat) :
    (∀ r, loadServices (fs s) = .ok r →
      (runDriver fs (szs ++ [s])).2 = some (stdSort r)) ∧
    ((loadServices (fs s) = .threw ∨ loadServices (fs s) = .failed) →
      (runDriver fs (szs ++ [s])).2 = none) ∧
    (runDriver fs []).2 = none :=
  ⟨fun _ hr => runDriver_last_ok hr, fun h => runDriver_last_fail h, rfl⟩

/-- Claim C6 counterexample: size 1's file cannot be opened, yet size 2 is
still processed afterwards — the open failure is caught and the run
continues rather than aborting. -/
theorem claim_C6_counterexample :
    (fun n => if n = 1 then none
      else if n = 2 then some ["h", "A,x,1,x"] else none) 1 = none ∧
    (runDriver (fun n => if n = 1 then none
      else if n = 2 then some ["h", "A,x,1,x"] else none)
      [1, 2]).1.processed = [2] :=
  ⟨rfl, by decide⟩

/-- Claim C6 (amended): a failure to open a dataset input file makes
`loadServices` throw; the driver catches the exception, skips that size
(nothing processed, dataset vector left cleared) and continues with the
remaining sizes — it does not abort the run. -/
theorem claim_C6_open_failure_continues (fs : Nat → Option (List String))
    (st : DriverState) (s : Nat) (rest : List Nat) (h : fs s = none) :
    loadServices (fs s) = .threw ∧
    driverStep fs st s = ⟨[], st.processed⟩ ∧
    runDriver fs (s :: rest) = runDriver fs rest := by
  have hthrew : loadServices (fs s) = .threw := by rw [h]; rfl
  exact ⟨hthrew, driverStep_threw hthrew,
    runDriver_skip_head rest (Or.inl hthrew)⟩

theorem claim_C6_witness :
    loadServices ((fun n => if n = 1 then none
      else if n = 2 then some ["h"] else none) 1) = .threw ∧
    driverStep (fun n => if n = 1 then none
      else if n = 2 then some ["h"] else none) ⟨[], []⟩ 1 = ⟨[], []⟩ ∧
    runDriver (fun n => if n = 1 then none
      else if n = 2 then some ["h"] else none) [1, 2] =
      runDriver (fun n => if n = 1 then none
        else if n = 2 then some ["h"] else none) [2] :=
  claim_C6_open_failure_continues
    (fun n => if n = 1 then none else if n = 2 then some ["h"] else none)
    ⟨[], []⟩ 1 [2] rfl

/-- Claim C7: a dataset file holding only its header line is reported as a
load failure; the driver skips that size (nothing processed, vector left
cleared) and continues with the remaining sizes without aborting. -/
theorem claim_C7_header_only_skipped (fs : Nat → Option (List String))
    (hdr : String) (st : DriverState) (s : Nat) (rest : List Nat)
    (h : fs s = some [hdr]) :
    loadServices (fs s) = .failed ∧
    driverStep fs st s = ⟨[], st.processed⟩ ∧
    runDriver fs (s :: rest) = runDriver fs rest := by
  have hfail : loadServices (fs s) = .failed := by
    rw [h]; exact loadServices_header_only hdr
  exact ⟨hfail, driverStep_failed hfail,
    runDriver_skip_head rest (Or.inr hfail)⟩

theorem claim_C7_witness :
    loadServices ((fun _ : Nat => some ["h"]) 1) = .failed ∧
    driverStep (fun _ : Nat => some ["h"]) ⟨[], []⟩ 1 = ⟨[], []⟩ ∧
    runDriver (fun _ : Nat => some ["h"]) [1, 2] =
      runDriver (fun _ : Nat => some ["h"]) [2] :=
  claim_C7_header_only_skipped (fun _ : Nat => some ["h"]) "h"
    ⟨[], []⟩ 1 [2] rfl

/-- Claim C8 counterexample: no input whatsoever makes bubble sort reorder
records tying under `operator==` (in particular ones differing only in
`duration`): the subsequence tying with any fixed record is always carried
over unchanged, so the reordering input the claim asserts does not exist. -/
theorem claim_C8_counterexample :
    ¬ ∃ (l out : List Service) (r : Service), bubbleSort l = some out ∧
      out.filter (fun x => Service.eq x r) ≠
        l.filter (fun x => Service.eq x r) := by
  rintro ⟨l, out, r, hout, hne⟩
  exact hne (bubbleSort_filter r hout)

/-- Claim C8 (amended): bubble sort IS stable in the classical sense: for
every input and every record `r`, the output's subsequence of records tying
with `r` under `operator==` equals the input's, so records comparing equal
but differing in `duration` keep their relative order. -/
theorem claim_C8_bubble_stable {l out : List Service} (r : Service)
    (h : bubbleSort l = some out) :
    out.filter (fun x => Service.eq x r) =
      l.filter (fun x => Service.eq x r) :=
  bubbleSort_filter r h

theorem claim_C8_witness :
    List.filter (fun x => Service.eq x ⟨"A", 1, 0, 1⟩)
      [⟨"A", 1, 2, 1⟩, ⟨"B", 2, 1, 1⟩] =
    List.filter (fun x => Service.eq x ⟨"A", 1, 0, 1⟩)
      [⟨"B", 2, 1, 1⟩, ⟨"A", 1, 2, 1⟩] :=
  claim_C8_bubble_stable ⟨"A", 1, 0, 1⟩ (by decide)

/-- Claim C9: applying any of the four algorithms to an already ascending
sequence returns it unchanged, element for element, durations included. -/
theorem claim_C9_idempotent (l : List Service) (h : l.Chain' SLE) :
    bubbleSort l = some l ∧ insertionSort l = l ∧ shakerSort l = some l ∧
      stdSort l = l :=
  ⟨bubbleSort_of_sorted h, insertionSort_of_sorted h,
    shakerSort_of_sorted h, stdSort_of_sorted h⟩

theorem claim_C9_witness :
    bubbleSort [⟨"A", 1, 7, 1⟩, ⟨"B", 2, 3, 2⟩] =
      some [⟨"A", 1, 7, 1⟩, ⟨"B", 2, 3, 2⟩] ∧
    insertionSort [⟨"A", 1, 7, 1⟩, ⟨"B", 2, 3, 2⟩] =
      [⟨"A", 1, 7, 1⟩, ⟨"B", 2, 3, 2⟩] ∧
    shakerSort [⟨"A", 1, 7, 1⟩, ⟨"B", 2, 3, 2⟩] =
      some [⟨"A", 1, 7, 1⟩, ⟨"B", 2, 3, 2⟩] ∧
    stdSort [⟨"A", 1, 7, 1⟩, ⟨"B", 2, 3, 2⟩] =
      [⟨"A", 1, 7, 1⟩, ⟨"B", 2, 3, 2⟩] :=
  claim_C9_idempotent _
    (List.chain'_cons.mpr ⟨by decide, List.chain'_singleton _⟩)

/-- Claim C10: on the empty sequence and on every single-element sequence,
all four algorithms return the input unchanged; the bubble and shaker
embeddings stay on the in-bounds path throughout (they return `some`,
never the `none` of an out-of-bounds access or exhausted loop fuel). -/
theorem claim_C10_boundary (s : Service) :
    bubbleSort [] = some [] ∧ bubbleSort [s] = some [s] ∧
    insertionSort ([] : List Service) = [] ∧ insertionSort [s] = [s] ∧
    shakerSort [] = some [] ∧ shakerSort [s] = some [s] ∧
    stdSort ([] : List Service) = [] ∧ stdSort [s] = [s] := by
  refine ⟨rfl, rfl, rfl, rfl, rfl, rfl, ?_, ?_⟩
  · simp [stdSort]
  · simp [stdSort]

end Lab1
